import Mathlib

/-!
Verification of the copy-block dump rewriter in `dev/prep_restore.py`.

The program is a single-pass, line-oriented state machine over the lines of a
logical database dump.  We embed it shallowly: a line is a `List Char`
(the trailing newline of a physical line is not part of the model, matching
the fact that the program strips it before any field processing and that
pass-through writes reproduce it verbatim), the mutable variables
`in_copy_block`, `expected_col_count` and `current_table` become the record
`PState`, and one loop iteration becomes the function `step`.  The regular
expression used for header recognition,
`^(COPY\s+)(\S+)(\s+)\(([^)]*)\)(\s+FROM\s+stdin;)` with IGNORECASE, is
deterministic (each greedy repetition is forced: a shorter match of `\s+` or
`\S+` always places a character of the wrong class next, and `[^)]*` cannot
cross the closing parenthesis), so it is embedded as the total function
`matchHeader` built from maximal-run scanners.  The external schema lookup is
an arbitrary function parameter `resolve`.
-/

set_option autoImplicit false

namespace PrepRestore

/-- The whitespace class of the Python regular expression `\s` and of
`str.strip` restricted to ASCII: space, tab, newline, carriage return,
vertical tab, form feed. -/
def pySpace (c : Char) : Bool :=
  c == ' ' || c == '\t' || c == '\n' || c == '\r' || c == '\x0b' || c == '\x0c'

/-- Python `str.strip()`: drop leading and trailing whitespace. -/
def pyStrip (l : List Char) : List Char :=
  (((l.dropWhile pySpace).reverse).dropWhile pySpace).reverse

/-- Python `str.split("\t")`: split a line into tab-separated fields.  The
result is never empty; the empty string splits into one empty field. -/
def splitTab : List Char → List (List Char)
  | [] => [[]]
  | c :: rest =>
    if c = '\t' then [] :: splitTab rest
    else
      match splitTab rest with
      | [] => [[c]]
      | f :: fs => (c :: f) :: fs

/-- Python `"\t".join(fields)`. -/
def joinTab : List (List Char) → List Char
  | [] => []
  | [f] => f
  | f :: fs => f ++ '\t' :: joinTab fs

/-- Python `", ".join(cols)`, used when the rewritten header is assembled. -/
def joinCommaSpace : List (List Char) → List Char
  | [] => []
  | [c] => c
  | c :: cs => c ++ ',' :: ' ' :: joinCommaSpace cs

/-- The data-row reconciliation of `main` (lines 157-165 of the script):
split on tabs; if there is exactly one extra field and it is empty, drop it;
if the count still exceeds the expectation, truncate; rejoin with tabs. -/
def processRow (n : Nat) (row : List Char) : List Char :=
  let fields := splitTab row
  let fields :=
    if fields.length = n + 1 ∧ fields.getLast? = some ([] : List Char) then
      fields.dropLast
    else fields
  let fields := if fields.length > n then fields.take n else fields
  joinTab fields

/-- Case-insensitive literal matcher: consume exactly the characters of
`pat`, comparing after `Char.toLower`, and return the consumed original
characters together with the remainder. -/
def parseCI : List Char → List Char → Option (List Char × List Char)
  | [], l => some ([], l)
  | _ :: _, [] => none
  | p :: ps, c :: cs =>
    if c.toLower = p.toLower then
      (parseCI ps cs).map (fun ar => (c :: ar.1, ar.2))
    else none

/-- Maximal nonempty run of characters satisfying `q` (the deterministic
reading of a greedy `\s+` or `\S+`). -/
def span1 (q : Char → Bool) (l : List Char) : Option (List Char × List Char) :=
  let a := l.takeWhile q
  if a.isEmpty then none else some (a, l.dropWhile q)

/-- Consume one expected literal character. -/
def expectChar (c : Char) : List Char → Option (List Char)
  | x :: xs => if x = c then some xs else none
  | [] => none

/-- The five capture groups of the header regular expression together with the
uncaptured remainder of the line after `stdin;`. -/
structure HeaderMatch where
  pre : List Char
  table : List Char
  spacer : List Char
  cols : List Char
  sfx : List Char
  rest : List Char
deriving DecidableEq, Repr

/-- The anchored, case-insensitive match of
`^(COPY\s+)(\S+)(\s+)\(([^)]*)\)(\s+FROM\s+stdin;)` against a line, returning
the capture groups (`pre` = group 1, `table` = group 2, `spacer` = group 3,
`cols` = group 4, `sfx` = group 5) and the remainder of the line. -/
def matchHeader (l : List Char) : Option HeaderMatch :=
  (parseCI ("COPY".data) l).bind fun kwr =>
  (span1 pySpace kwr.2).bind fun w1r =>
  (span1 (fun c => !pySpace c) w1r.2).bind fun tbr =>
  (span1 pySpace tbr.2).bind fun w2r =>
  (expectChar '(' w2r.2).bind fun r5 =>
  (expectChar ')' (r5.dropWhile (fun c => c != ')'))).bind fun r6 =>
  (span1 pySpace r6).bind fun w3r =>
  (parseCI ("FROM".data) w3r.2).bind fun kfr =>
  (span1 pySpace kfr.2).bind fun w4r =>
  (parseCI ("stdin;".data) w4r.2).map fun ksr =>
    ⟨kwr.1 ++ w1r.1, tbr.1, w2r.1, r5.takeWhile (fun c => c != ')'),
     w3r.1 ++ kfr.1 ++ w4r.1 ++ ksr.1, ksr.2⟩

/-- The block state of the loop in `main`: the variables `in_copy_block`,
`expected_col_count` (`none` embeds the Python value `None`) and
`current_table` (`none` embeds `None`). -/
structure PState where
  in_copy_block : Bool
  expected_col_count : Option Nat
  current_table : Option (List Char)
deriving DecidableEq, Repr

/-- The state before the first line: `in_copy_block = False`,
`expected_col_count = 0`, `current_table = None`. -/
def initState : PState := ⟨false, some 0, none⟩

/-- The block terminator content: the two characters backslash, dot. -/
def termLine : List Char := ['\\', '.']

/-- One iteration of the loop in `main` (lines 121-172 of the script):
header recognition is attempted first on every line; otherwise, inside a
block, the terminator closes the block, a known column count triggers row
reconciliation, an unknown count passes the line through; outside a block
the line passes through. -/
def step (resolve : List Char → List (List Char)) (s : PState)
    (line : List Char) : PState × List Char :=
  match matchHeader line with
  | some m =>
    let target := resolve m.table
    if target = [] then
      (⟨true, none, some m.table⟩, line)
    else
      (⟨true, some target.length, some m.table⟩,
        m.pre ++ m.table ++ m.spacer ++ '(' :: joinCommaSpace target ++ ')' :: m.sfx)
  | none =>
    if s.in_copy_block then
      if pyStrip line = termLine then
        (⟨false, some 0, none⟩, line)
      else
        match s.expected_col_count with
        | some n => (s, processRow n line)
        | none => (s, line)
    else
      (s, line)

/-- The whole pass: fold `step` over the input lines, emitting one output
line per input line. -/
def run (resolve : List Char → List (List Char)) : PState → List (List Char) → List (List Char)
  | _, [] => []
  | s, l :: ls =>
    let p := step resolve s l
    p.2 :: run resolve p.1 ls

/-- `headNot q l` holds when `l` is empty or its first character falsifies
`q`; this is the side condition under which a maximal-run scanner stops
exactly at the boundary of `l`. -/
def headNot (q : Char → Bool) : List Char → Prop
  | [] => True
  | c :: _ => q c = false

/-- Case-insensitive agreement of a consumed character with a pattern
character, as tested by `parseCI`. -/
def ciEq (p c : Char) : Prop := c.toLower = p.toLower

/-- The structural content of a successful header match: group 1 splits into
the keyword and a nonempty whitespace run, group 2 is a nonempty
non-whitespace run, group 3 is a nonempty whitespace run, group 4 contains no
closing parenthesis, and group 5 splits into whitespace, `FROM`, whitespace,
`stdin;`.  This is exactly what is needed to rerun the matcher on a
reassembled header. -/
def HeaderShape (p t sp c suf : List Char) : Prop :=
  ∃ kw ws1 ws3 kf ws4 ks,
    p = kw ++ ws1 ∧
    suf = ws3 ++ kf ++ ws4 ++ ks ∧
    List.Forall₂ ciEq ("COPY".data) kw ∧
    ws1 ≠ [] ∧ (∀ x ∈ ws1, pySpace x = true) ∧
    t ≠ [] ∧ (∀ x ∈ t, pySpace x = false) ∧
    sp ≠ [] ∧ (∀ x ∈ sp, pySpace x = true) ∧
    (')' : Char) ∉ c ∧
    ws3 ≠ [] ∧ (∀ x ∈ ws3, pySpace x = true) ∧
    List.Forall₂ ciEq ("FROM".data) kf ∧
    ws4 ≠ [] ∧ (∀ x ∈ ws4, pySpace x = true) ∧
    List.Forall₂ ciEq ("stdin;".data) ks

/-- Simulation invariant between the state of a first pass and the state of a
second pass that consumes the output of the first: either the two states
agree, or the first pass is inside a block with a known count while the
second pass has already been reset by a line that only the first pass
produced in terminator shape. -/
def HInv (s1 s2 : PState) : Prop :=
  s2 = s1 ∨
    (s1.in_copy_block = true ∧ (∃ n, s1.expected_col_count = some n) ∧
      s2 = ⟨false, some 0, none⟩)

/-- Concrete resolver used by witnesses: table `t` has the two columns
`a`, `b`; every other table is unknown. -/
def resolveW (tb : List Char) : List (List Char) :=
  if tb = "t".data then ["a".data, "b".data] else []

/-- Concrete resolver for the counterexamples to C2 and C9: table `t` has
column `a`, table `u` has one column whose name contains a closing
parenthesis. -/
def resolveP (tb : List Char) : List (List Char) :=
  if tb = "t".data then ["a".data]
  else if tb = "u".data then [['x', ')', 'y']]
  else []

/-- Concrete resolver for the C2 counterexample: table `t` has column `a`,
table `u` has column `x`. -/
def resolveU (tb : List Char) : List (List Char) :=
  if tb = "t".data then ["a".data]
  else if tb = "u".data then ["x".data]
  else []

/-! ### Lemmas about tab splitting and joining -/

theorem splitTab_ne_nil (l : List Char) : splitTab l ≠ [] := by
  cases l with
  | nil => simp [splitTab]
  | cons c rest =>
    by_cases hc : c = '\t'
    · simp [splitTab, hc]
    · cases h : splitTab rest with
      | nil => simp [splitTab, hc, h]
      | cons f fs => simp [splitTab, hc, h]

theorem joinTab_splitTab (l : List Char) : joinTab (splitTab l) = l := by
  induction l with
  | nil => rfl
  | cons c rest ih =>
    by_cases hc : c = '\t'
    · subst hc
      cases h : splitTab rest with
      | nil => exact absurd h (splitTab_ne_nil rest)
      | cons f fs =>
        rw [h] at ih
        simp only [splitTab, if_pos rfl, h, joinTab, List.nil_append]
        rw [ih]
    · cases h : splitTab rest with
      | nil => exact absurd h (splitTab_ne_nil rest)
      | cons f fs =>
        rw [h] at ih
        simp only [splitTab, if_neg hc, h]
        cases fs with
        | nil => simp only [joinTab] at ih ⊢; rw [ih]
        | cons g gs =>
          simp only [joinTab, List.cons_append] at ih ⊢
          rw [ih]

theorem splitTab_append {f l : List Char} (hf : ('\t' : Char) ∉ f)
    {g : List Char} {gs : List (List Char)} (h : splitTab l = g :: gs) :
    splitTab (f ++ l) = (f ++ g) :: gs := by
  induction f with
  | nil => simpa using h
  | cons c cs ih =>
    have hc : c ≠ '\t' := by
      intro e; exact hf (e ▸ List.mem_cons_self c cs)
    have hcs : ('\t' : Char) ∉ cs := fun m => hf (List.mem_cons_of_mem c m)
    simp only [List.cons_append, splitTab, if_neg hc, List.append_eq]
    rw [ih hcs]

theorem splitTab_eq_single {f : List Char} (hf : ('\t' : Char) ∉ f) :
    splitTab f = [f] := by
  have h := @splitTab_append f [] hf [] [] rfl
  simpa using h

theorem mem_splitTab {l f : List Char} (hm : f ∈ splitTab l) : ('\t' : Char) ∉ f := by
  induction l generalizing f with
  | nil =>
    simp only [splitTab, List.mem_singleton] at hm
    subst hm; simp
  | cons c rest ih =>
    by_cases hc : c = '\t'
    · subst hc
      simp only [splitTab, if_pos rfl, if_true, List.mem_cons] at hm
      rcases hm with h1 | h1
      · subst h1; simp
      · exact ih h1
    · cases h : splitTab rest with
      | nil => exact absurd h (splitTab_ne_nil rest)
      | cons g gs =>
        simp only [splitTab, if_neg hc, h, List.mem_cons] at hm
        rcases hm with hm | hm
        · subst hm
          intro hx
          rcases List.mem_cons.mp hx with e | e
          · exact hc e.symm
          · exact ih (h ▸ List.mem_cons_self g gs) e
        · exact ih (h ▸ List.mem_cons_of_mem g hm)

theorem splitTab_joinTab {fs : List (List Char)} (hne : fs ≠ [])
    (hf : ∀ f ∈ fs, ('\t' : Char) ∉ f) : splitTab (joinTab fs) = fs := by
  induction fs with
  | nil => exact absurd rfl hne
  | cons f gs ih =>
    cases gs with
    | nil =>
      simp only [joinTab]
      exact splitTab_eq_single (hf f (List.mem_cons_self f []))
    | cons g gs2 =>
      have hrest : splitTab (joinTab (g :: gs2)) = g :: gs2 := by
        refine ih (by simp) ?_
        intro x hx
        exact hf x (List.mem_cons_of_mem f hx)
      have htab : splitTab ('\t' :: joinTab (g :: gs2)) = [] :: g :: gs2 := by
        simp only [splitTab, if_pos rfl, hrest]
        simp
      have happ := splitTab_append (hf f (List.mem_cons_self f _)) htab
      simp only [joinTab]
      rw [happ]
      simp

theorem joinTab_take_pre (fs : List (List Char)) (k : Nat) :
    ∃ z, joinTab (fs.take k) ++ z = joinTab fs := by
  induction fs generalizing k with
  | nil => exact ⟨[], by simp⟩
  | cons f gs ih =>
    cases k with
    | zero => exact ⟨joinTab (f :: gs), by simp [joinTab]⟩
    | succ k =>
      cases gs with
      | nil => exact ⟨[], by simp [joinTab]⟩
      | cons g gs2 =>
        cases hk : (g :: gs2).take k with
        | nil =>
          have : k = 0 := by
            rcases List.take_eq_nil_iff.mp hk with h | h
            · exact h
            · exact absurd h (by simp)
          subst this
          refine ⟨'\t' :: joinTab (g :: gs2), ?_⟩
          simp [joinTab]
        | cons y ys =>
          obtain ⟨z, hz⟩ := ih k
          rw [hk] at hz
          refine ⟨z, ?_⟩
          simp only [List.take_succ_cons, hk, joinTab, List.append_assoc,
            List.cons_append]
          rw [hz]

/-! ### Lemmas about the row reconciliation -/

theorem processRow_of_le {n : Nat} {r : List Char}
    (h : (splitTab r).length ≤ n) : processRow n r = r := by
  have h1 : ¬((splitTab r).length = n + 1 ∧
      (splitTab r).getLast? = some ([] : List Char)) := by
    rintro ⟨e, _⟩; omega
  have h2 : ¬((splitTab r).length > n) := by omega
  simp only [processRow]
  rw [if_neg h1, if_neg h2, joinTab_splitTab]

theorem processRow_drop {n : Nat} {r : List Char}
    (hl : (splitTab r).length = n + 1)
    (he : (splitTab r).getLast? = some ([] : List Char)) :
    processRow n r = joinTab ((splitTab r).take n) := by
  have hd : (splitTab r).dropLast = (splitTab r).take n := by
    rw [List.dropLast_eq_take, hl]
    simp
  have hlen : ((splitTab r).take n).length = n := by
    rw [List.length_take, hl]; omega
  have hgt : ¬((splitTab r).take n).length > n := by simp [hlen]
  simp only [processRow]
  rw [if_pos (And.intro hl he), hd, if_neg hgt]

theorem processRow_trunc {n : Nat} {r : List Char}
    (h : (splitTab r).length > n)
    (hne : ¬((splitTab r).length = n + 1 ∧
      (splitTab r).getLast? = some ([] : List Char))) :
    processRow n r = joinTab ((splitTab r).take n) := by
  simp only [processRow]
  rw [if_neg hne, if_pos h]

theorem processRow_eq_take {n : Nat} {r : List Char}
    (h : (splitTab r).length > n) :
    processRow n r = joinTab ((splitTab r).take n) := by
  by_cases hd : (splitTab r).length = n + 1 ∧
      (splitTab r).getLast? = some ([] : List Char)
  · exact processRow_drop hd.1 hd.2
  · exact processRow_trunc h hd

theorem splitTab_joinTab_take {n : Nat} {r : List Char} (hn : 1 ≤ n) :
    splitTab (joinTab ((splitTab r).take n)) = (splitTab r).take n := by
  have hne : (splitTab r).take n ≠ [] := by
    intro contra
    rcases List.take_eq_nil_iff.mp contra with h | h
    · omega
    · exact splitTab_ne_nil r h
  have hfree : ∀ f ∈ (splitTab r).take n, ('\t' : Char) ∉ f :=
    fun f hf => mem_splitTab (List.take_subset n _ hf)
  exact splitTab_joinTab hne hfree

theorem length_processRow {n : Nat} {r : List Char} (hn : 1 ≤ n) :
    (splitTab (processRow n r)).length = min n (splitTab r).length := by
  rcases le_or_lt (splitTab r).length n with h | h
  · rw [processRow_of_le h]; omega
  · rw [processRow_eq_take h, splitTab_joinTab_take hn, List.length_take]

theorem processRow_idem {n : Nat} {r : List Char} :
    processRow n (processRow n r) = processRow n r := by
  rcases le_or_lt (splitTab r).length n with h | h
  · rw [processRow_of_le h]; exact processRow_of_le h
  · rw [processRow_eq_take h]
    rcases Nat.eq_zero_or_pos n with hn | hn
    · subst hn
      simp only [List.take_zero, joinTab]
      decide
    · apply processRow_of_le
      rw [splitTab_joinTab_take hn, List.length_take]
      omega

theorem processRow_pre (n : Nat) (r : List Char) :
    ∃ z, processRow n r ++ z = r := by
  rcases le_or_lt (splitTab r).length n with h | h
  · exact ⟨[], by rw [processRow_of_le h, List.append_nil]⟩
  · rw [processRow_eq_take h]
    obtain ⟨z, hz⟩ := joinTab_take_pre (splitTab r) n
    exact ⟨z, by rw [hz, joinTab_splitTab]⟩

/-! ### Lemmas about the header parser components -/

theorem parseCI_eq_some {pat l a r : List Char} (h : parseCI pat l = some (a, r)) :
    l = a ++ r ∧ List.Forall₂ ciEq pat a := by
  induction pat generalizing l a with
  | nil =>
    simp only [parseCI, Option.some.injEq, Prod.mk.injEq] at h
    obtain ⟨h1, h2⟩ := h
    subst h1
    exact ⟨by simp [h2], List.Forall₂.nil⟩
  | cons p ps ih =>
    cases l with
    | nil => simp [parseCI] at h
    | cons c cs =>
      simp only [parseCI] at h
      by_cases hc : c.toLower = p.toLower
      · rw [if_pos hc] at h
        cases hmap : parseCI ps cs with
        | none => rw [hmap] at h; simp at h
        | some ar =>
          obtain ⟨a2, r2⟩ := ar
          rw [hmap] at h
          simp only [Option.map_some', Option.some.injEq, Prod.mk.injEq] at h
          obtain ⟨ha, hr⟩ := h
          subst hr
          obtain ⟨hl, hf⟩ := ih hmap
          subst ha
          exact ⟨by simp [hl], List.Forall₂.cons hc hf⟩
      · rw [if_neg hc] at h
        cases h

theorem parseCI_build {pat a : List Char} (h : List.Forall₂ ciEq pat a)
    (X : List Char) : parseCI pat (a ++ X) = some (a, X) := by
  induction h with
  | nil => rfl
  | @cons p c ps cs h1 _ ih =>
    have h1x : c.toLower = p.toLower := h1
    simp only [List.cons_append, parseCI, if_pos h1x, List.append_eq, ih,
      Option.map_some']

theorem takeWhile_append_all {q : Char → Bool} {a : List Char} (X : List Char)
    (hall : ∀ x ∈ a, q x = true) :
    (a ++ X).takeWhile q = a ++ X.takeWhile q := by
  induction a with
  | nil => simp
  | cons c cs ih =>
    have hc : q c = true := hall c (List.mem_cons_self c cs)
    have hcs : ∀ x ∈ cs, q x = true := fun x hx => hall x (List.mem_cons_of_mem c hx)
    simp only [List.cons_append, List.takeWhile_cons, hc, ih hcs, if_true]

theorem dropWhile_append_all {q : Char → Bool} {a : List Char} (X : List Char)
    (hall : ∀ x ∈ a, q x = true) :
    (a ++ X).dropWhile q = X.dropWhile q := by
  induction a with
  | nil => simp
  | cons c cs ih =>
    have hc : q c = true := hall c (List.mem_cons_self c cs)
    have hcs : ∀ x ∈ cs, q x = true := fun x hx => hall x (List.mem_cons_of_mem c hx)
    simp only [List.cons_append, List.dropWhile_cons, hc, ih hcs, if_true]

theorem takeWhile_headNot {q : Char → Bool} {X : List Char} (hX : headNot q X) :
    X.takeWhile q = [] := by
  cases X with
  | nil => rfl
  | cons c cs =>
    have hc : q c = false := hX
    simp [List.takeWhile_cons, hc]

theorem dropWhile_headNot {q : Char → Bool} {X : List Char} (hX : headNot q X) :
    X.dropWhile q = X := by
  cases X with
  | nil => rfl
  | cons c cs =>
    have hc : q c = false := hX
    simp [List.dropWhile_cons, hc]

theorem span1_eq_some {q : Char → Bool} {l a r : List Char}
    (h : span1 q l = some (a, r)) :
    l = a ++ r ∧ a ≠ [] ∧ (∀ x ∈ a, q x = true) := by
  simp only [span1] at h
  by_cases he : (l.takeWhile q).isEmpty
  · rw [if_pos he] at h; cases h
  · rw [if_neg he] at h
    simp only [Option.some.injEq, Prod.mk.injEq] at h
    obtain ⟨h1, h2⟩ := h
    subst h1; subst h2
    refine ⟨(List.takeWhile_append_dropWhile q l).symm, ?_, ?_⟩
    · intro contra
      rw [contra] at he
      exact he rfl
    · intro x hx
      exact List.mem_takeWhile_imp hx

theorem span1_build {q : Char → Bool} {a : List Char} (ha : a ≠ [])
    (hall : ∀ x ∈ a, q x = true) {X : List Char} (hX : headNot q X) :
    span1 q (a ++ X) = some (a, X) := by
  have ht : (a ++ X).takeWhile q = a := by
    rw [takeWhile_append_all X hall, takeWhile_headNot hX, List.append_nil]
  have hd : (a ++ X).dropWhile q = X := by
    rw [dropWhile_append_all X hall, dropWhile_headNot hX]
  have hne : ¬((a ++ X).takeWhile q).isEmpty = true := by
    rw [ht]
    cases a with
    | nil => exact absurd rfl ha
    | cons c cs => simp
  simp only [span1]
  rw [if_neg hne, ht, hd]

theorem expectChar_eq_some {c : Char} {l r : List Char}
    (h : expectChar c l = some r) : l = c :: r := by
  cases l with
  | nil => cases h
  | cons x xs =>
    simp only [expectChar] at h
    by_cases hx : x = c
    · rw [if_pos hx] at h
      simp only [Option.some.injEq] at h
      rw [hx, h]
    · rw [if_neg hx] at h
      cases h

theorem expectChar_build (c : Char) (r : List Char) :
    expectChar c (c :: r) = some r := by
  simp [expectChar]

theorem headNot_append {q : Char → Bool} {a : List Char} (X : List Char)
    (ha : a ≠ []) (h : headNot q a) : headNot q (a ++ X) := by
  cases a with
  | nil => exact absurd rfl ha
  | cons c cs => exact h

theorem headNot_of_all_false {q : Char → Bool} {a : List Char}
    (hall : ∀ x ∈ a, q x = false) : headNot q a := by
  cases a with
  | nil => trivial
  | cons c cs => exact hall c (List.mem_cons_self c cs)

theorem toLower_of_space {c : Char} (h : pySpace c = true) : c.toLower = c := by
  simp only [pySpace, Bool.or_eq_true, beq_iff_eq] at h
  rcases h with ((((h | h) | h) | h) | h) | h <;> subst h <;> decide

theorem not_space_of_toLower {c d : Char} (hd : pySpace d = false)
    (h : c.toLower = d) : pySpace c = false := by
  by_contra hc
  have hc2 : pySpace c = true := by
    cases hcc : pySpace c
    · exact absurd hcc hc
    · rfl
  have : c = d := by rw [← toLower_of_space hc2, h]
  rw [this] at hc2
  rw [hc2] at hd
  cases hd

/-! ### Inversion and reassembly of the header matcher -/

theorem matchHeader_inv {l : List Char} {m : HeaderMatch}
    (h : matchHeader l = some m) :
    HeaderShape m.pre m.table m.spacer m.cols m.sfx ∧
    l = m.pre ++ m.table ++ m.spacer ++ ('(' :: m.cols) ++ (')' :: m.sfx) ++ m.rest := by
  simp only [matchHeader, Option.bind_eq_some, Option.map_eq_some'] at h
  obtain ⟨⟨kw, r1⟩, h1, ⟨ws1, r2⟩, h2, ⟨tbl, r3⟩, h3, ⟨ws2, r4⟩, h4, r5, h5, r6, h6,
    ⟨ws3, r7⟩, h7, ⟨kf, r8⟩, h8, ⟨ws4, r9⟩, h9, ⟨ks, r10⟩, h10, hm⟩ := h
  obtain ⟨hl1, hkw⟩ := parseCI_eq_some h1
  obtain ⟨hl2, hws1ne, hws1⟩ := span1_eq_some h2
  obtain ⟨hl3, htne, htb⟩ := span1_eq_some h3
  have ht : ∀ x ∈ tbl, pySpace x = false := by
    intro x hx
    have := htb x hx
    simpa using this
  obtain ⟨hl4, hspne, hsp⟩ := span1_eq_some h4
  have hl5 : r4 = '(' :: r5 := expectChar_eq_some h5
  have hl6 : r5.dropWhile (fun c => c != ')') = ')' :: r6 := expectChar_eq_some h6
  obtain ⟨csv, hcsv⟩ : ∃ x, r5.takeWhile (fun c => c != ')') = x := ⟨_, rfl⟩
  have hr5 : r5 = csv ++ ')' :: r6 := by
    conv_lhs => rw [← List.takeWhile_append_dropWhile (fun c => c != ')') r5]
    rw [hl6, hcsv]
  have hcfree : (')' : Char) ∉ csv := by
    intro hx
    rw [← hcsv] at hx
    have := List.mem_takeWhile_imp hx
    simp at this
  obtain ⟨hl7, hws3ne, hws3⟩ := span1_eq_some h7
  obtain ⟨hl8, hkf⟩ := parseCI_eq_some h8
  obtain ⟨hl9, hws4ne, hws4⟩ := span1_eq_some h9
  obtain ⟨hl10, hks⟩ := parseCI_eq_some h10
  rw [hcsv] at hm
  subst hm
  constructor
  · exact ⟨kw, ws1, ws3, kf, ws4, ks, rfl, rfl, hkw, hws1ne, hws1, htne, ht,
      hspne, hsp, hcfree, hws3ne, hws3, hkf, hws4ne, hws4, hks⟩
  · subst hl1 hl2 hl3 hl4 hl5 hr5 hl7 hl8 hl9 hl10
    simp [List.append_assoc, List.cons_append]

theorem matchHeader_build {p t sp c suf : List Char} (hs : HeaderShape p t sp c suf)
    (R : List Char) :
    matchHeader (p ++ t ++ sp ++ ('(' :: c) ++ (')' :: suf) ++ R) =
      some ⟨p, t, sp, c, suf, R⟩ := by
  obtain ⟨kw, ws1, ws3, kf, ws4, ks, hp, hsuf, hkw, hws1ne, hws1, htne, ht,
    hspne, hsp, hc, hws3ne, hws3, hkf, hws4ne, hws4, hks⟩ := hs
  subst hp hsuf
  have hkfh : headNot pySpace kf := by
    cases hkf with
    | cons h1 h2 => exact @not_space_of_toLower _ 'f' (by decide) (h1.trans (by decide))
  have hkfne : kf ≠ [] := by
    cases hkf with
    | cons h1 h2 => simp
  have hksh : headNot pySpace ks := by
    cases hks with
    | cons h1 h2 => exact @not_space_of_toLower _ 's' (by decide) (h1.trans (by decide))
  have hksne : ks ≠ [] := by
    cases hks with
    | cons h1 h2 => simp
  have htn : ∀ x ∈ t, ((fun z => !pySpace z) x) = true := by
    intro x hx; simp [ht x hx]
  have hspn : ∀ x ∈ sp, ((fun z => !pySpace z) x) = false := by
    intro x hx; simp [hsp x hx]
  have hcall : ∀ x ∈ c, (x != ')') = true := by
    intro x hx
    simp only [bne_iff_ne, ne_eq]
    intro e
    exact hc (e ▸ hx)
  have hpar : ∀ W : List Char, headNot pySpace ('(' :: W) := fun _ => rfl
  have hcpar : ∀ W : List Char, headNot (fun x => x != ')') (')' :: W) := fun _ => rfl
  simp only [List.append_assoc, List.cons_append]
  simp only [matchHeader]
  rw [parseCI_build hkw]
  simp only [Option.some_bind]
  rw [span1_build hws1ne hws1 (headNot_append _ htne (headNot_of_all_false ht))]
  simp only [Option.some_bind]
  rw [span1_build htne htn (headNot_append _ hspne (headNot_of_all_false hspn))]
  simp only [Option.some_bind]
  rw [span1_build hspne hsp (hpar _)]
  simp only [Option.some_bind]
  rw [expectChar_build]
  simp only [Option.some_bind]
  rw [dropWhile_append_all _ hcall, dropWhile_headNot (hcpar _)]
  rw [expectChar_build]
  simp only [Option.some_bind]
  rw [span1_build hws3ne hws3 (headNot_append _ hkfne hkfh)]
  simp only [Option.some_bind]
  rw [parseCI_build hkf]
  simp only [Option.some_bind]
  rw [span1_build hws4ne hws4 (headNot_append _ hksne hksh)]
  simp only [Option.some_bind]
  rw [parseCI_build hks]
  simp only [Option.map_some']
  rw [takeWhile_append_all _ hcall, takeWhile_headNot (hcpar _)]
  simp [List.append_assoc]

theorem matchHeader_extend {u v : List Char} {m : HeaderMatch}
    (h : matchHeader u = some m) :
    matchHeader (u ++ v) = some ⟨m.pre, m.table, m.spacer, m.cols, m.sfx, m.rest ++ v⟩ := by
  obtain ⟨hs, hu⟩ := matchHeader_inv h
  rw [hu]
  have harg : (m.pre ++ m.table ++ m.spacer ++ ('(' :: m.cols) ++ (')' :: m.sfx) ++ m.rest) ++ v
      = m.pre ++ m.table ++ m.spacer ++ ('(' :: m.cols) ++ (')' :: m.sfx) ++ (m.rest ++ v) := by
    simp [List.append_assoc]
  rw [harg]
  exact matchHeader_build hs (m.rest ++ v)

theorem matchHeader_none_pre {r r' z : List Char} (hr : r' ++ z = r)
    (h : matchHeader r = none) : matchHeader r' = none := by
  cases hm : matchHeader r' with
  | none => rfl
  | some m =>
    have hx := @matchHeader_extend r' z m hm
    rw [hr] at hx
    rw [hx] at h
    cases h

theorem rstrip_last {c0 : Char} {y : List Char} (hc : pySpace c0 = false) :
    ∃ w, ((y ++ [c0]).dropWhile pySpace).reverse = c0 :: w := by
  induction y with
  | nil => exact ⟨[], by simp [List.dropWhile_cons, hc]⟩
  | cons a ys ih =>
    by_cases ha : pySpace a = true
    · obtain ⟨w, hw⟩ := ih
      refine ⟨w, ?_⟩
      simp only [List.cons_append, List.dropWhile_cons, ha, if_true]
      exact hw
    · have ha2 : pySpace a = false := by
        cases hx : pySpace a
        · rfl
        · exact absurd hx ha
      refine ⟨ys.reverse ++ [a], ?_⟩
      simp [List.dropWhile_cons, ha2, List.reverse_append]

theorem pyStrip_cons_head {c0 : Char} {z : List Char} (hc : pySpace c0 = false) :
    ∃ w, pyStrip (c0 :: z) = c0 :: w := by
  unfold pyStrip
  have h1 : (c0 :: z).dropWhile pySpace = c0 :: z := by
    simp [List.dropWhile_cons, hc]
  rw [h1]
  have h2 : (c0 :: z).reverse = z.reverse ++ [c0] := by simp
  rw [h2]
  exact rstrip_last hc

theorem matchHeader_none_of_term {line : List Char} (h : pyStrip line = termLine) :
    matchHeader line = none := by
  cases hm : matchHeader line with
  | none => rfl
  | some m =>
    exfalso
    obtain ⟨hs, hl⟩ := matchHeader_inv hm
    obtain ⟨kw, ws1, ws3, kf, ws4, ks, hp, hsuf, hkw, hrest⟩ := hs
    cases hkw with
    | cons h1 h2 =>
      rw [hp] at hl
      simp only [List.cons_append, List.append_assoc] at hl
      rw [hl] at h
      have hc0 := @not_space_of_toLower _ 'c' (by decide) (h1.trans (by decide))
      obtain ⟨w, hw⟩ := pyStrip_cons_head hc0
      rw [hw] at h
      have : termLine = ['\\', '.'] := rfl
      rw [this] at h
      have hcc := (List.cons.injEq _ _ _ _).mp h
      have h1x := h1
      rw [hcc.1] at h1x
      have hne : ('\\').toLower ≠ 'C'.toLower := by decide
      exact hne h1x

theorem paren_notin_joinCommaSpace {cols : List (List Char)}
    (h : ∀ col ∈ cols, (')' : Char) ∉ col) : (')' : Char) ∉ joinCommaSpace cols := by
  induction cols with
  | nil => simp [joinCommaSpace]
  | cons c cs ih =>
    cases cs with
    | nil =>
      simp only [joinCommaSpace]
      exact h c (List.mem_cons_self c [])
    | cons d ds =>
      simp only [joinCommaSpace, List.mem_append, List.mem_cons]
      push_neg
      exact ⟨h c (List.mem_cons_self c _), by decide, by decide,
        ih (fun col hc => h col (List.mem_cons_of_mem c hc))⟩

/-! ### Branch lemmas for one loop iteration -/

theorem step_header_empty (resolve : List Char → List (List Char)) (s : PState)
    {line : List Char} {m : HeaderMatch} (hm : matchHeader line = some m)
    (hres : resolve m.table = []) :
    step resolve s line = (⟨true, none, some m.table⟩, line) := by
  simp [step, hm, hres]

theorem step_header_some (resolve : List Char → List (List Char)) (s : PState)
    {line : List Char} {m : HeaderMatch} (hm : matchHeader line = some m)
    (hres : resolve m.table ≠ []) :
    step resolve s line = (⟨true, some (resolve m.table).length, some m.table⟩,
      m.pre ++ m.table ++ m.spacer ++ '(' :: joinCommaSpace (resolve m.table) ++ ')' :: m.sfx) := by
  simp [step, hm, hres]

theorem step_term (resolve : List Char → List (List Char)) {s : PState}
    (hb : s.in_copy_block = true) {line : List Char} (ht : pyStrip line = termLine) :
    step resolve s line = (⟨false, some 0, none⟩, line) := by
  have hm : matchHeader line = none := matchHeader_none_of_term ht
  simp [step, hm, hb, ht]

theorem step_row (resolve : List Char → List (List Char)) {n : Nat}
    {tb : Option (List Char)} {line : List Char} (hm : matchHeader line = none)
    (ht : pyStrip line ≠ termLine) :
    step resolve ⟨true, some n, tb⟩ line = (⟨true, some n, tb⟩, processRow n line) := by
  simp [step, hm, ht]

theorem step_unknown (resolve : List Char → List (List Char))
    {tb : Option (List Char)} {line : List Char} (hm : matchHeader line = none)
    (ht : pyStrip line ≠ termLine) :
    step resolve ⟨true, none, tb⟩ line = (⟨true, none, tb⟩, line) := by
  simp [step, hm, ht]

theorem step_outside (resolve : List Char → List (List Char)) {s : PState}
    (hb : s.in_copy_block = false) {line : List Char}
    (hm : matchHeader line = none) : step resolve s line = (s, line) := by
  simp [step, hm, hb]

theorem headerShape_withCols {p t sp c suf : List Char} (hs : HeaderShape p t sp c suf)
    {c2 : List Char} (hc2 : (')' : Char) ∉ c2) : HeaderShape p t sp c2 suf := by
  obtain ⟨kw, ws1, ws3, kf, ws4, ks, h1, h2, h3, h4, h5, h6, h7, h8, h9, h10,
    h11, h12, h13, h14, h15, h16⟩ := hs
  exact ⟨kw, ws1, ws3, kf, ws4, ks, h1, h2, h3, h4, h5, h6, h7, h8, h9, hc2,
    h11, h12, h13, h14, h15, h16⟩

/-! ### Simulation: a second pass over the output of a first pass -/

theorem step_sim (resolve : List Char → List (List Char))
    (Hres : ∀ tb col, col ∈ resolve tb → (')' : Char) ∉ col)
    {s1 s2 : PState} (h : HInv s1 s2) {x O : List Char} {S : PState}
    (e1 : step resolve s1 x = (S, O)) :
    ∃ S2, step resolve s2 O = (S2, O) ∧ HInv S S2 := by
  obtain ⟨b1, exp1, t1⟩ := s1
  cases hm : matchHeader x with
  | some m =>
    by_cases hres : resolve m.table = []
    · rw [step_header_empty resolve _ hm hres] at e1
      injection e1 with h1 h2
      subst h1; subst h2
      exact ⟨⟨true, none, some m.table⟩, step_header_empty resolve s2 hm hres,
        Or.inl rfl⟩
    · rw [step_header_some resolve _ hm hres] at e1
      injection e1 with h1 h2
      subst h1; subst h2
      have hJ : (')' : Char) ∉ joinCommaSpace (resolve m.table) :=
        paren_notin_joinCommaSpace (fun col hc => Hres m.table col hc)
      have hshape2 := headerShape_withCols (matchHeader_inv hm).1 hJ
      have hH := matchHeader_build hshape2 []
      simp only [List.append_nil] at hH
      exact ⟨⟨true, some (resolve m.table).length, some m.table⟩,
        @step_header_some resolve s2 _
          ⟨m.pre, m.table, m.spacer, joinCommaSpace (resolve m.table), m.sfx, []⟩
          hH hres, Or.inl rfl⟩
  | none =>
    rcases h with hsync | ⟨hb1, hexp, hs2⟩
    · subst hsync
      by_cases hb : b1 = true
      · subst hb
        by_cases ht : pyStrip x = termLine
        · rw [@step_term resolve ⟨true, exp1, t1⟩ rfl x ht] at e1
          injection e1 with h1 h2
          subst h1; subst h2
          exact ⟨⟨false, some 0, none⟩, @step_term resolve ⟨true, exp1, t1⟩ rfl _ ht,
            Or.inl rfl⟩
        · cases exp1 with
          | none =>
            rw [step_unknown resolve hm ht] at e1
            injection e1 with h1 h2
            subst h1; subst h2
            exact ⟨⟨true, none, t1⟩, step_unknown resolve hm ht, Or.inl rfl⟩
          | some n =>
            rw [step_row resolve hm ht] at e1
            injection e1 with h1 h2
            subst h1; subst h2
            obtain ⟨z, hz⟩ := processRow_pre n x
            have hm2 : matchHeader (processRow n x) = none := matchHeader_none_pre hz hm
            by_cases ht2 : pyStrip (processRow n x) = termLine
            · exact ⟨⟨false, some 0, none⟩,
                @step_term resolve ⟨true, some n, t1⟩ rfl _ ht2,
                Or.inr ⟨rfl, ⟨n, rfl⟩, rfl⟩⟩
            · refine ⟨⟨true, some n, t1⟩, ?_, Or.inl rfl⟩
              rw [step_row resolve hm2 ht2, processRow_idem]
      · have hb2 : b1 = false := by
          cases b1
          · rfl
          · exact absurd rfl hb
        subst hb2
        rw [@step_outside resolve ⟨false, exp1, t1⟩ rfl x hm] at e1
        injection e1 with h1 h2
        subst h1; subst h2
        exact ⟨⟨false, exp1, t1⟩, @step_outside resolve ⟨false, exp1, t1⟩ rfl _ hm,
          Or.inl rfl⟩
    · subst hs2
      obtain ⟨n, hn⟩ := hexp
      have hb : b1 = true := hb1
      subst hb
      have hn2 : exp1 = some n := hn
      subst hn2
      by_cases ht : pyStrip x = termLine
      · rw [@step_term resolve ⟨true, some n, t1⟩ rfl x ht] at e1
        injection e1 with h1 h2
        subst h1; subst h2
        exact ⟨⟨false, some 0, none⟩,
          @step_outside resolve ⟨false, some 0, none⟩ rfl _ (matchHeader_none_of_term ht),
          Or.inl rfl⟩
      · rw [step_row resolve hm ht] at e1
        injection e1 with h1 h2
        subst h1; subst h2
        obtain ⟨z, hz⟩ := processRow_pre n x
        have hm2 : matchHeader (processRow n x) = none := matchHeader_none_pre hz hm
        exact ⟨⟨false, some 0, none⟩,
          @step_outside resolve ⟨false, some 0, none⟩ rfl _ hm2,
          Or.inr ⟨rfl, ⟨n, rfl⟩, rfl⟩⟩

theorem run_sim (resolve : List Char → List (List Char))
    (Hres : ∀ tb col, col ∈ resolve tb → (')' : Char) ∉ col) :
    ∀ (xs : List (List Char)) {s1 s2 : PState}, HInv s1 s2 →
      run resolve s2 (run resolve s1 xs) = run resolve s1 xs := by
  intro xs
  induction xs with
  | nil => intro s1 s2 h; rfl
  | cons x ls ih =>
    intro s1 s2 h
    cases hstep : step resolve s1 x with
    | mk S O =>
      obtain ⟨S2, e2, hinv⟩ := step_sim resolve Hres h hstep
      simp only [run, hstep, e2]
      rw [ih hinv]

/-! ### Claim theorems -/

/-- Claim C1 (corrected): while a block is open with expected count `n`
(obtained from a nonempty resolver result, so `1 ≤ n`), every data row line
written to output has exactly `min n k` tab-separated fields, where `k` is the
field count of the input row — hence at most `n` fields, not always exactly
`n`: rows with fewer than `n` fields are not padded. -/
theorem claimC1_amended (resolve : List Char → List (List Char)) (n : Nat)
    (tb : Option (List Char)) (line : List Char) (hn : 1 ≤ n)
    (hm : matchHeader line = none) (ht : pyStrip line ≠ termLine) :
    (step resolve ⟨true, some n, tb⟩ line).2 = processRow n line ∧
    (splitTab ((step resolve ⟨true, some n, tb⟩ line).2)).length
      = min n (splitTab line).length ∧
    (splitTab ((step resolve ⟨true, some n, tb⟩ line).2)).length ≤ n := by
  rw [step_row resolve hm ht]
  refine ⟨rfl, length_processRow hn, ?_⟩
  exact (length_processRow hn).trans_le (Nat.min_le_left _ _)

/-- Claim C1, counterexample: table `t` resolves to 2 columns, yet the data
row `1` inside that block is emitted with 1 tab-separated field, not 2. -/
theorem claimC1_counterexample :
    run resolveW initState ["COPY t (x) FROM stdin;".data, "1".data]
      = ["COPY t (a, b) FROM stdin;".data, "1".data] ∧
    resolveW ("t".data) = ["a".data, "b".data] ∧
    (splitTab ("1".data)).length ≠ 2 := by
  decide

/-- Witness for the amended claim C1 at a concrete input. -/
theorem claimC1_witness :
    (step resolveW ⟨true, some 2, some ("t".data)⟩ ("1".data)).2
      = processRow 2 ("1".data) ∧
    (splitTab ((step resolveW ⟨true, some 2, some ("t".data)⟩ ("1".data)).2)).length
      = min 2 (splitTab ("1".data)).length ∧
    (splitTab ((step resolveW ⟨true, some 2, some ("t".data)⟩ ("1".data)).2)).length
      ≤ 2 :=
  claimC1_amended resolveW 2 (some ("t".data)) ("1".data) (by decide) (by decide)
    (by decide)

/-- Claim C2 (corrected): header recognition is attempted on every line,
regardless of the block state — `step` treats a header-matching line
identically in every state, so a header arriving inside an open block starts
a new block (overwriting the single tracked block state) instead of being
handled by the inside-block rules. -/
theorem claimC2_amended (resolve : List Char → List (List Char)) (s s2 : PState)
    (line : List Char) (h : matchHeader line ≠ none) :
    step resolve s line = step resolve s2 line := by
  cases hm : matchHeader line with
  | none => exact absurd hm h
  | some m => simp [step, hm]

/-- Claim C2, counterexample: while the block of table `t` (known count 1) is
open, the line `COPY u (c) FROM stdin;` is not a terminator and the
inside-block data-row rule would emit it unchanged, yet the program rewrites
it as a new header — a second block is opened before any terminator. -/
theorem claimC2_counterexample :
    run resolveU initState
      ["COPY t (c) FROM stdin;".data, "COPY u (c) FROM stdin;".data]
      = ["COPY t (a) FROM stdin;".data, "COPY u (x) FROM stdin;".data] ∧
    pyStrip ("COPY u (c) FROM stdin;".data) ≠ termLine ∧
    processRow 1 ("COPY u (c) FROM stdin;".data) = "COPY u (c) FROM stdin;".data ∧
    "COPY u (x) FROM stdin;".data ≠ "COPY u (c) FROM stdin;".data := by
  decide

/-- Witness for the amended claim C2 at a concrete input. -/
theorem claimC2_witness :
    step resolveW initState ("COPY t (x) FROM stdin;".data)
      = step resolveW ⟨true, some 1, some ("q".data)⟩ ("COPY t (x) FROM stdin;".data) :=
  claimC2_amended resolveW initState ⟨true, some 1, some ("q".data)⟩
    ("COPY t (x) FROM stdin;".data) (by decide)

/-- Claim C3 (confirmed): inside a block with known expected count `n`, a data
row that splits into exactly `n + 1` tab-separated fields whose last field is
empty is emitted as exactly the first `n` fields joined by tabs. -/
theorem claimC3_trailing_empty_dropped (resolve : List Char → List (List Char))
    (n : Nat) (tb : Option (List Char)) (line : List Char)
    (hm : matchHeader line = none) (ht : pyStrip line ≠ termLine)
    (hlen : (splitTab line).length = n + 1)
    (hlast : (splitTab line).getLast? = some ([] : List Char)) :
    (step resolve ⟨true, some n, tb⟩ line).2 = joinTab ((splitTab line).take n) := by
  rw [step_row resolve hm ht]
  exact processRow_drop hlen hlast

/-- Witness for claim C3 at a concrete input. -/
theorem claimC3_witness :
    (step resolveW ⟨true, some 2, some ("t".data)⟩ ("1\t2\t".data)).2
      = joinTab ((splitTab ("1\t2\t".data)).take 2) :=
  claimC3_trailing_empty_dropped resolveW 2 (some ("t".data)) ("1\t2\t".data)
    (by decide) (by decide) (by decide) (by decide)

/-- Claim C4 (confirmed): inside a block with known expected count `n`, a data
row with more than `n + 1` fields, or exactly `n + 1` fields whose last field
is nonempty, is emitted as exactly the first `n` fields joined by tabs,
whatever the content of the discarded fields. -/
theorem claimC4_excess_truncated (resolve : List Char → List (List Char))
    (n : Nat) (tb : Option (List Char)) (line : List Char)
    (hm : matchHeader line = none) (ht : pyStrip line ≠ termLine)
    (hgt : (splitTab line).length > n + 1 ∨
      ((splitTab line).length = n + 1 ∧
        (splitTab line).getLast? ≠ some ([] : List Char))) :
    (step resolve ⟨true, some n, tb⟩ line).2 = joinTab ((splitTab line).take n) := by
  rw [step_row resolve hm ht]
  rcases hgt with h | ⟨h1, h2⟩
  · refine processRow_trunc (by omega) ?_
    rintro ⟨e, _⟩
    omega
  · refine processRow_trunc (by omega) ?_
    rintro ⟨e, hl⟩
    exact h2 hl

/-- Witness for claim C4 at a concrete input. -/
theorem claimC4_witness :
    (step resolveW ⟨true, some 2, some ("t".data)⟩ ("1\t2\t3\t4".data)).2
      = joinTab ((splitTab ("1\t2\t3\t4".data)).take 2) :=
  claimC4_excess_truncated resolveW 2 (some ("t".data)) ("1\t2\t3\t4".data)
    (by decide) (by decide) (Or.inl (by decide))

/-- Claim C5 (confirmed): inside a block with known expected count `n`, a data
row with fewer than `n` tab-separated fields is emitted unchanged, with no
padding and no state change. -/
theorem claimC5_short_row_unchanged (resolve : List Char → List (List Char))
    (n : Nat) (tb : Option (List Char)) (line : List Char)
    (hm : matchHeader line = none) (ht : pyStrip line ≠ termLine)
    (hlt : (splitTab line).length < n) :
    step resolve ⟨true, some n, tb⟩ line = (⟨true, some n, tb⟩, line) := by
  rw [step_row resolve hm ht, processRow_of_le (by omega)]

/-- Witness for claim C5 at a concrete input. -/
theorem claimC5_witness :
    step resolveW ⟨true, some 2, some ("t".data)⟩ ("1".data)
      = (⟨true, some 2, some ("t".data)⟩, "1".data) :=
  claimC5_short_row_unchanged resolveW 2 (some ("t".data)) ("1".data)
    (by decide) (by decide) (by decide)

/-- Claim C6 (confirmed): when the resolver returns an empty column list for a
header, the header line is emitted unchanged and the block is entered with an
unknown count; every subsequent non-header line of that block (data rows and
the terminator alike) is emitted byte-identical, so the whole block degrades
to pass-through while processing continues. -/
theorem claimC6_unknown_passthrough (resolve : List Char → List (List Char))
    (s : PState) {line row : List Char} {m : HeaderMatch}
    (hm : matchHeader line = some m) (hres : resolve m.table = [])
    (hrow : matchHeader row = none) :
    step resolve s line = (⟨true, none, some m.table⟩, line) ∧
    (step resolve ⟨true, none, some m.table⟩ row).2 = row := by
  refine ⟨step_header_empty resolve s hm hres, ?_⟩
  by_cases ht : pyStrip row = termLine
  · rw [@step_term resolve ⟨true, none, some m.table⟩ rfl row ht]
  · rw [step_unknown resolve hrow ht]

/-- Witness for claim C6 at a concrete input. -/
theorem claimC6_witness :
    step resolveW initState ("COPY u (z) FROM stdin;".data)
      = (⟨true, none, some ("u".data)⟩, "COPY u (z) FROM stdin;".data) ∧
    (step resolveW ⟨true, none, some ("u".data)⟩ ("9\t9".data)).2 = "9\t9".data :=
  claimC6_unknown_passthrough resolveW initState
    (show matchHeader ("COPY u (z) FROM stdin;".data) =
      some ⟨"COPY ".data, "u".data, " ".data, "z".data, " FROM stdin;".data, []⟩
      by decide)
    (by decide) (by decide)

/-- Claim C7 (confirmed): in either in-block sub-state, a line whose stripped
content is exactly the two characters backslash dot is emitted unchanged and
all block state is reset: the in-block flag to false, the expected count to
0, the current table to none. -/
theorem claimC7_terminator_reset (resolve : List Char → List (List Char))
    {s : PState} (hb : s.in_copy_block = true) {line : List Char}
    (ht : pyStrip line = termLine) :
    step resolve s line = (⟨false, some 0, none⟩, line) :=
  step_term resolve hb ht

/-- Witness for claim C7 at a concrete input (count-known sub-state, with
surrounding whitespace stripped by the terminator test). -/
theorem claimC7_witness :
    step resolveW ⟨true, some 2, some ("t".data)⟩ ("\\.".data)
      = (⟨false, some 0, none⟩, "\\.".data) :=
  @claimC7_terminator_reset resolveW ⟨true, some 2, some ("t".data)⟩ rfl
    ("\\.".data) (by decide)

/-- Claim C8 (confirmed): outside any block, a line that does not match the
header pattern is emitted byte-identical to the input, and the state does not
change. -/
theorem claimC8_outside_passthrough (resolve : List Char → List (List Char))
    {s : PState} (hb : s.in_copy_block = false) {line : List Char}
    (hm : matchHeader line = none) : step resolve s line = (s, line) :=
  step_outside resolve hb hm

/-- Witness for claim C8 at a concrete input. -/
theorem claimC8_witness :
    step resolveW initState ("ALTER TABLE t OWNER TO x;".data)
      = (initState, "ALTER TABLE t OWNER TO x;".data) :=
  @claimC8_outside_passthrough resolveW initState rfl
    ("ALTER TABLE t OWNER TO x;".data) (by decide)

/-- Claim C9 (corrected): with a fixed resolver whose column names contain no
closing parenthesis and no newline, the rewriting pass is idempotent: running
the pass again over its own output reproduces that output.  (Without the
restriction the pass is not idempotent; see the counterexample.) -/
theorem claimC9_amended (resolve : List Char → List (List Char))
    (hres : ∀ tb col, col ∈ resolve tb →
      (')' : Char) ∉ col ∧ ('\n' : Char) ∉ col)
    (xs : List (List Char)) :
    run resolve initState (run resolve initState xs) = run resolve initState xs :=
  run_sim resolve (fun tb col hc => (hres tb col hc).1) xs (Or.inl rfl)

/-- Claim C9, counterexample: a resolver whose column name contains a closing
parenthesis produces a rewritten header that no longer matches the header
pattern; on a second pass that line is mangled as a data row of the
enclosing block, so the pass is not idempotent for every resolver. -/
theorem claimC9_counterexample :
    run resolveP initState (run resolveP initState
      ["COPY t (c) FROM stdin;".data, "COPY\tu\t(c) FROM stdin;".data])
      ≠ run resolveP initState
        ["COPY t (c) FROM stdin;".data, "COPY\tu\t(c) FROM stdin;".data] := by
  decide

/-- Witness for the amended claim C9 at a concrete input. -/
theorem claimC9_witness :
    run resolveW initState (run resolveW initState
      ["COPY t (c) FROM stdin;".data, "1\t2\t3".data, "\\.".data])
      = run resolveW initState
        ["COPY t (c) FROM stdin;".data, "1\t2\t3".data, "\\.".data] :=
  claimC9_amended resolveW
    (by
      intro tb col hc
      by_cases htb : tb = "t".data
      · rw [resolveW, if_pos htb] at hc
        simp only [List.mem_cons, List.not_mem_nil, or_false] at hc
        rcases hc with hc | hc
        · subst hc; exact ⟨by decide, by decide⟩
        · subst hc; exact ⟨by decide, by decide⟩
      · rw [resolveW, if_neg htb] at hc
        cases hc)
    ["COPY t (c) FROM stdin;".data, "1\t2\t3".data, "\\.".data]

/-- Claim C10 (confirmed): when a line matches the header pattern and the
resolver returns a nonempty column list, the emitted header is exactly the
matched keyword-and-spacing group, the table identifier, the spacer, the
resolved columns joined by comma-space inside parentheses, and the matched
`FROM stdin;` group; the input line decomposes into those matched groups
followed by the unmatched remainder, which is discarded from the output. -/
theorem claimC10_header_rewrite (resolve : List Char → List (List Char))
    (s : PState) {line : List Char} {m : HeaderMatch}
    (hm : matchHeader line = some m) (hres : resolve m.table ≠ []) :
    step resolve s line = (⟨true, some (resolve m.table).length, some m.table⟩,
      m.pre ++ m.table ++ m.spacer ++ '(' :: joinCommaSpace (resolve m.table)
        ++ ')' :: m.sfx) ∧
    line = m.pre ++ m.table ++ m.spacer ++ ('(' :: m.cols) ++ (')' :: m.sfx)
      ++ m.rest :=
  ⟨step_header_some resolve s hm hres, (matchHeader_inv hm).2⟩

/-- Witness for claim C10 at a concrete input with trailing characters after
the matched suffix. -/
theorem claimC10_witness :
    step resolveW initState ("COPY t (x, y) FROM stdin;junk".data)
      = (⟨true, some 2, some ("t".data)⟩, "COPY t (a, b) FROM stdin;".data) ∧
    "COPY t (x, y) FROM stdin;junk".data
      = "COPY ".data ++ "t".data ++ " ".data ++ ('(' :: "x, y".data)
        ++ (')' :: " FROM stdin;".data) ++ "junk".data :=
  claimC10_header_rewrite resolveW initState
    (show matchHeader ("COPY t (x, y) FROM stdin;junk".data) =
      some ⟨"COPY ".data, "t".data, " ".data, "x, y".data, " FROM stdin;".data,
        "junk".data⟩
      by decide)
    (by decide)

end PrepRestore

